import Mathlib

/-!
Verification of the methfast overlap-join core (src/main.rs).

Shallow embedding conventions:
* Rust `i32` is modelled as `Int` (no claim under scrutiny depends on
  32-bit wraparound; the lossy parser rejects out-of-range literals
  exactly as `str::parse::<i32>` does, so table values fit in 32 bits).
* Rust `f32` is modelled as `Rat`; float arithmetic on the small decimal
  values appearing in the claims is exact, and `{:.4}` formatting is
  modelled as rounding half-to-even at the fourth decimal of the exact
  value, which is what Rust's formatter does on these inputs.
* `HashMap<String, Vec<MethInterval>>` is modelled as an association
  list with unique keys (`pushEntry` appends to an existing entry or
  creates a new one, `lookupChrom` finds the entry for a key).
* File I/O and line splitting are outside the modelled core: the
  methylation input reaches `parse_meth_bed` as a list of records, each
  record being the list of its whitespace-separated fields, and the
  `while` loop of `lower_bound_end` is embedded with explicit fuel
  (`fuel = hi - lo` bounds the iteration count, and the top-level call
  passes `intervals.length`, which always suffices).
-/

/-- One measured methylation sub-interval (struct `MethInterval`). -/
structure MethInterval where
  start : Int
  «end» : Int
  fraction : Rat
  coverage : Int
deriving DecidableEq, Repr

/-- The per-chromosome interval table (struct `MethRanges`); the
`HashMap` is modelled as an association list with unique keys. -/
structure MethRanges where
  by_chrom : List (String × List MethInterval)
deriving DecidableEq, Repr

/-- One query region (struct `TargetInterval`). -/
structure TargetInterval where
  chrom : String
  start : Int
  «end» : Int
deriving DecidableEq, Repr

/-- The four configurable 1-based column indices (CLI fields `frac_col`,
`cov_col`, `meth_col`, `unmeth_col`; `0` means unset). -/
structure ColCfg where
  frac_col : Nat
  cov_col : Nat
  meth_col : Nat
  unmeth_col : Nat
deriving DecidableEq, Repr

deriving instance DecidableEq for Except

/-- Value of a nonempty all-digit character list, `none` otherwise. -/
def digitsToNat? (cs : List Char) : Option Nat :=
  if cs.isEmpty then none
  else if cs.all Char.isDigit then
    some (cs.foldl (fun acc c => acc * 10 + (c.toNat - 48)) 0)
  else none

/-- `parse_i32_lossy`: `s.parse::<i32>().unwrap_or(0)`.  An optional
sign followed by at least one digit, rejected (hence `0`) when the value
does not fit in `i32`. -/
def parse_i32_lossy (s : String) : Int :=
  let cs := s.data
  let sgnds : Int × List Char :=
    match cs with
    | '-' :: rest => (-1, rest)
    | '+' :: rest => (1, rest)
    | _ => (1, cs)
  match digitsToNat? sgnds.2 with
  | none => 0
  | some n =>
    let v : Int := sgnds.1 * n
    if -2147483648 ≤ v ∧ v ≤ 2147483647 then v else 0

/-- `parse_f32_lossy`: `s.parse::<f32>().unwrap_or(0.0)`, with `f32`
modelled as `Rat`.  The model covers plain decimal literals (optional
sign, integer part, optional fractional part) — the only float syntax
the claims exercise; other syntaxes degrade to `0` like parse failures. -/
def parse_f32_lossy (s : String) : Rat :=
  let cs := s.data
  let sgnds : Rat × List Char :=
    match cs with
    | '-' :: rest => (-1, rest)
    | '+' :: rest => (1, rest)
    | _ => (1, cs)
  let intPart := sgnds.2.takeWhile (fun c => c ≠ '.')
  let rest := sgnds.2.dropWhile (fun c => c ≠ '.')
  match rest with
  | [] =>
    match digitsToNat? intPart with
    | none => 0
    | some n => sgnds.1 * n
  | _ :: fracPart =>
    if intPart.isEmpty ∧ fracPart.isEmpty then 0
    else if intPart.all Char.isDigit ∧ fracPart.all Char.isDigit then
      let ip : Nat := intPart.foldl (fun acc c => acc * 10 + (c.toNat - 48)) 0
      let fp : Nat := fracPart.foldl (fun acc c => acc * 10 + (c.toNat - 48)) 0
      sgnds.1 * ((ip : Rat) + (fp : Rat) / ((10 : Rat) ^ fracPart.length))
    else 0

/-- Placeholder interval used for the (never taken) out-of-range branch
of list indexing; `intervals[mid]` in the Rust source is always in
bounds. -/
def dummyIv : MethInterval := ⟨0, 0, 0, 0⟩

/-- Loop body of `lower_bound_end`, with explicit fuel for the `while
lo < hi` loop; `hi - lo` halves each iteration, so any `fuel ≥ hi - lo`
yields the loop's result. -/
def lbGo (l : List MethInterval) (s : Int) : Nat → Nat → Nat → Nat
  | 0, lo, _ => lo
  | fuel + 1, lo, hi =>
    if lo < hi then
      let mid := lo + (hi - lo) / 2
      if (l.getD mid dummyIv).«end» ≤ s then lbGo l s fuel (mid + 1) hi
      else lbGo l s fuel lo mid
    else lo

/-- `lower_bound_end`: binary search for the first interval whose `end`
exceeds `start`. -/
def lower_bound_end (intervals : List MethInterval) (start : Int) : Nat :=
  lbGo intervals start intervals.length 0 intervals.length

/-- The three mutable accumulators of `compute_target_line`. -/
structure Agg where
  num_positions : Nat
  sum_total_coverage : Int
  sum_meth_coverage : Rat
deriving DecidableEq, Repr

/-- The `for iv in &intervals[idx..]` scan of `compute_target_line`:
break once `iv.start >= target.end`, accumulate whenever
`iv.end > target.start`. -/
def overlap_scan (t : TargetInterval) : Agg → List MethInterval → Agg
  | a, [] => a
  | a, iv :: rest =>
    if t.«end» ≤ iv.start then a
    else if t.start < iv.«end» then
      overlap_scan t
        ⟨a.num_positions + 1, a.sum_total_coverage + iv.coverage,
          a.sum_meth_coverage + iv.fraction * (iv.coverage : Rat)⟩ rest
    else overlap_scan t a rest

/-- Association-list lookup modelling `ranges.by_chrom.get(&target.chrom)`. -/
def lookupChrom (m : List (String × List MethInterval)) (c : String) :
    Option (List MethInterval) :=
  match m with
  | [] => none
  | (k, l) :: rest => if k = c then some l else lookupChrom rest c

/-- Aggregation part of `compute_target_line`: binary search, then the
bounded forward scan. -/
def compute_target_agg (ranges : MethRanges) (target : TargetInterval) : Agg :=
  match lookupChrom ranges.by_chrom target.chrom with
  | none => ⟨0, 0, 0⟩
  | some intervals =>
    overlap_scan target ⟨0, 0, 0⟩
      (intervals.drop (lower_bound_end intervals target.start))

/-- Final `weighted_fraction` computation of `compute_target_line`. -/
def weighted_fraction (a : Agg) : Rat :=
  if 0 < a.sum_total_coverage then
    a.sum_meth_coverage / (a.sum_total_coverage : Rat)
  else 0

/-- Floor of a rational as an integer (`Int.fdiv` floors since the
denominator is positive). -/
def ratFloor (q : Rat) : Int := Int.fdiv q.num q.den

/-- Round to the nearest integer, ties to even — the rounding Rust's
`{:.4}` float formatter performs on the exact value. -/
def roundHalfEven (q : Rat) : Int :=
  let f := ratFloor q
  let r := q - (f : Rat)
  if r < 1 / 2 then f
  else if 1 / 2 < r then f + 1
  else if f % 2 = 0 then f else f + 1

/-- Left-pad the fractional digits to width 4. -/
def pad4 (n : Int) : String :=
  (if n < 10 then "000" else if n < 100 then "00"
   else if n < 1000 then "0" else "") ++ toString n

/-- Format a nonnegative rational with exactly 4 decimal digits. -/
def fmt4pos (q : Rat) : String :=
  let n := roundHalfEven (q * 10000)
  toString (n / 10000) ++ "." ++ pad4 (n % 10000)

/-- Rust's `{:.4}` formatting, modelled on the exact rational value. -/
def fmt4 (q : Rat) : String :=
  if q < 0 then "-" ++ fmt4pos (-q) else fmt4pos q

/-- `compute_target_line`: aggregate, then join the six tab-separated
output columns. -/
def compute_target_line (ranges : MethRanges) (target : TargetInterval) : String :=
  let a := compute_target_agg ranges target
  target.chrom ++ "\t" ++ toString target.start ++ "\t" ++ toString target.«end» ++
    "\t" ++ toString a.num_positions ++ "\t" ++ toString a.sum_total_coverage ++
    "\t" ++ fmt4 (weighted_fraction a)

/-- The fatal sort-order message of `parse_meth_bed`, naming the
offending line number and both records. -/
def sortErrMsg (linenum : Nat) (pc : String) (ps pe : Int)
    (c : String) (s e2 : Int) : String :=
  "Error: Methylation BED file is not sorted. Exiting...\nLine " ++
    toString linenum ++ ": " ++ pc ++ " " ++ toString ps ++ " " ++
    toString pe ++ ", then " ++ c ++ " " ++ toString s ++ " " ++ toString e2

/-- Validity of the methylated/unmethylated column pair for a record
with `fc` fields (first branch of the derivation dispatch). -/
def mode1Valid (cfg : ColCfg) (fc : Nat) : Prop :=
  0 < cfg.meth_col ∧ cfg.meth_col ≤ fc ∧ 0 < cfg.unmeth_col ∧ cfg.unmeth_col ≤ fc

/-- Validity of the methylated/coverage column pair (second branch). -/
def mode2Valid (cfg : ColCfg) (fc : Nat) : Prop :=
  0 < cfg.meth_col ∧ cfg.meth_col ≤ fc ∧ 0 < cfg.cov_col ∧ cfg.cov_col ≤ fc

/-- Validity of the coverage/fraction column pair (third branch). -/
def mode3Valid (cfg : ColCfg) (fc : Nat) : Prop :=
  0 < cfg.cov_col ∧ cfg.cov_col ≤ fc ∧ 0 < cfg.frac_col ∧ cfg.frac_col ≤ fc

instance (cfg : ColCfg) (fc : Nat) : Decidable (mode1Valid cfg fc) :=
  inferInstanceAs (Decidable (_ ∧ _))

instance (cfg : ColCfg) (fc : Nat) : Decidable (mode2Valid cfg fc) :=
  inferInstanceAs (Decidable (_ ∧ _))

instance (cfg : ColCfg) (fc : Nat) : Decidable (mode3Valid cfg fc) :=
  inferInstanceAs (Decidable (_ ∧ _))

/-- The three-way `(fraction, coverage)` derivation of `parse_meth_bed`
(lines 130–159 of the source), `none` when no column combination fits. -/
def deriveFracCov (cfg : ColCfg) (fields : List String) : Option (Rat × Int) :=
  let field_count := fields.length
  if mode1Valid cfg field_count then
    let methylated := parse_i32_lossy (fields.getD (cfg.meth_col - 1) "")
    let unmethylated := parse_i32_lossy (fields.getD (cfg.unmeth_col - 1) "")
    let coverage := methylated + unmethylated
    some (if 0 < coverage then (methylated : Rat) / (coverage : Rat) else 0, coverage)
  else if mode2Valid cfg field_count then
    let methylated := parse_i32_lossy (fields.getD (cfg.meth_col - 1) "")
    let coverage := parse_i32_lossy (fields.getD (cfg.cov_col - 1) "")
    some (if 0 < coverage then (methylated : Rat) / (coverage : Rat) else 0, coverage)
  else if mode3Valid cfg field_count then
    some (parse_f32_lossy (fields.getD (cfg.frac_col - 1) ""),
      parse_i32_lossy (fields.getD (cfg.cov_col - 1) ""))
  else none

/-- `by_chrom.entry(chrom).or_default().push(iv)` on the association
list: append to the chromosome's sequence, creating it if absent. -/
def pushEntry (m : List (String × List MethInterval)) (k : String)
    (iv : MethInterval) : List (String × List MethInterval) :=
  match m with
  | [] => [(k, [iv])]
  | (k', l) :: rest =>
    if k' = k then (k', l ++ [iv]) :: rest else (k', l) :: pushEntry rest k iv

/-- The mutable state of the `parse_meth_bed` reading loop. -/
structure BuildState where
  by_chrom : List (String × List MethInterval)
  prev_chrom : String
  prev_start : Int
  prev_end : Int
  linenum : Nat
deriving Repr

/-- The record-processing loop of `parse_meth_bed`: skip short records,
check sort order against the previous kept record, derive
`(fraction, coverage)`, and push the interval. -/
def parse_meth_bed_go (cfg : ColCfg) :
    BuildState → List (List String) →
    Except String (List (String × List MethInterval))
  | st, [] => Except.ok st.by_chrom
  | st, fields :: rest =>
    let linenum := st.linenum + 1
    if fields.length < 4 then
      parse_meth_bed_go cfg ⟨st.by_chrom, st.prev_chrom, st.prev_start, st.prev_end, linenum⟩ rest
    else
      let chrom := fields.getD 0 ""
      let start := parse_i32_lossy (fields.getD 1 "")
      let «end» := parse_i32_lossy (fields.getD 2 "")
      if st.prev_start ≠ -1 ∧ chrom = st.prev_chrom ∧ start < st.prev_end then
        Except.error
          (sortErrMsg linenum st.prev_chrom st.prev_start st.prev_end chrom start «end»)
      else
        match deriveFracCov cfg fields with
        | none => Except.error "Error: invalid column indices"
        | some fc =>
          parse_meth_bed_go cfg
            ⟨pushEntry st.by_chrom chrom ⟨start, «end», fc.1, fc.2⟩,
              chrom, start, «end», linenum⟩ rest

/-- `parse_meth_bed`: run the loop from the empty table with the
`prev_start = -1` sentinel, as the source initializes it. -/
def parse_meth_bed (cfg : ColCfg) (lines : List (List String)) :
    Except String MethRanges :=
  match parse_meth_bed_go cfg ⟨[], "", -1, -1, 0⟩ lines with
  | Except.ok m => Except.ok ⟨m⟩
  | Except.error msg => Except.error msg

/-- The `(chrom, start, end)` triple a record parses to. -/
def recTriple (fields : List String) : String × Int × Int :=
  (fields.getD 0 "", parse_i32_lossy (fields.getD 1 ""), parse_i32_lossy (fields.getD 2 ""))

/-- Records that survive the `fields.len() < 4` filter. -/
def keptRecs (lines : List (List String)) : List (List String) :=
  lines.filter (fun fields => decide (4 ≤ fields.length))

/-- Parsed `(chrom, start, end)` triples of the kept records. -/
def keptTriples (lines : List (List String)) : List (String × Int × Int) :=
  (keptRecs lines).map recTriple

/-- The interval a kept record is stored as (on success the derivation
is always `some`, so the `getD` default is never used). -/
def mkIv (cfg : ColCfg) (fields : List String) : MethInterval :=
  ⟨(recTriple fields).2.1, (recTriple fields).2.2,
    ((deriveFracCov cfg fields).getD (0, 0)).1,
    ((deriveFracCov cfg fields).getD (0, 0)).2⟩

/-- A chromosome's entry in the association list, `[]` when absent. -/
def entryD (m : List (String × List MethInterval)) (c : String) :
    List MethInterval :=
  (lookupChrom m c).getD []

/-- The kept records carrying chromosome `c`, in input order. -/
def chromRecs (c : String) (lines : List (List String)) : List (List String) :=
  (keptRecs lines).filter (fun fields => decide ((recTriple fields).1 = c))

/-- Whether, starting from previous kept triple `(pc, ps, pe)`, some
later kept record trips the source's sort check (same chromosome as the
immediately previous kept record, start below its end, and the previous
start differing from the `-1` sentinel). -/
def violFrom (pc : String) (ps pe : Int) : List (List String) → Bool
  | [] => false
  | fields :: rest =>
    if fields.length < 4 then violFrom pc ps pe rest
    else
      let t := recTriple fields
      if ps ≠ -1 ∧ t.1 = pc ∧ t.2.1 < pe then true
      else violFrom t.1 t.2.1 t.2.2 rest

/-- No chromosome re-interleaving: whenever a triple's chromosome occurs
again later in the list, it already recurs at the immediately following
position, so each chromosome's records form one contiguous block. -/
def contig : List (String × Int × Int) → Bool
  | [] => true
  | x :: rest =>
    (!decide (x.1 ∈ rest.map Prod.fst) || decide ((rest.headD x).1 = x.1)) && contig rest

/-- Half-open overlap between a methylation interval and a target, as
the claims state it: `iv.start < t.end` and `iv.end > t.start`. -/
def overlapb (t : TargetInterval) (iv : MethInterval) : Bool :=
  decide (iv.start < t.«end») && decide (t.start < iv.«end»)

/-- Number of overlapping intervals (spec-side aggregate). -/
def overlapCount (t : TargetInterval) (l : List MethInterval) : Nat :=
  (l.filter (overlapb t)).length

/-- Total coverage of the overlapping intervals (spec-side aggregate). -/
def overlapCoverage (t : TargetInterval) (l : List MethInterval) : Int :=
  ((l.filter (overlapb t)).map (fun iv => iv.coverage)).sum

/-- Sum of `fraction * coverage` over the overlapping intervals
(spec-side aggregate). -/
def overlapWeighted (t : TargetInterval) (l : List MethInterval) : Rat :=
  ((l.filter (overlapb t)).map (fun iv => iv.fraction * (iv.coverage : Rat))).sum

/-- Sequential semantics of the batch driver: one output line per
target, in input order. -/
def compute_lines (ranges : MethRanges) (targets : List TargetInterval) :
    List String :=
  targets.map (fun t => compute_target_line ranges t)

/-- Placeholder target for the (never taken) out-of-range branch of
slot indexing in the parallel model. -/
def dummyTarget : TargetInterval := ⟨"", 0, 0⟩

/-- Modelled from the spec: rayon's `par_iter().map(...).collect()` in
`run` is library code outside this repository; per the spec it is an
order-preserving parallel map, modelled here as one output slot per
target index, written by the workers in an arbitrary completion order
`order` (any permutation of the indices). -/
def par_collect_slots (ranges : MethRanges) (targets : List TargetInterval)
    (order : List Nat) : List (Option String) :=
  order.foldl
    (fun slots i =>
      slots.set i (some (compute_target_line ranges (targets.getD i dummyTarget))))
    (List.replicate targets.length none)

/-- Example interval list with ends `[2, 6, 11]` from the repository's
`finds_first_candidate_interval_with_binary_search` test. -/
def exIvs : List MethInterval := [⟨1, 2, 0, 1⟩, ⟨5, 6, 0, 1⟩, ⟨10, 11, 0, 1⟩]

/-- Example table of the repository's
`computes_weighted_fraction_from_intervals` test. -/
def ranges8 : MethRanges :=
  ⟨[("chr1", [⟨10, 11, 1, 5⟩, ⟨12, 13, 1 / 2, 10⟩, ⟨20, 21, 0, 3⟩])]⟩

/-- Example target `chr1:[9,14)` of the same test. -/
def target8 : TargetInterval := ⟨"chr1", 9, 14⟩

/-- The CLI's default column configuration: `frac_col = 4`,
`cov_col = 5`, methylated/unmethylated unset. -/
def cfg0 : ColCfg := ⟨4, 5, 0, 0⟩

/-- Input whose first kept record parses to `start = -1`: the sentinel
value disables the sort check for the following record. -/
def lines4 : List (List String) :=
  [["chr1", "-1", "10", "0.5", "7"], ["chr1", "0", "5", "0.5", "7"]]

/-- Input with an ordinary same-chromosome sort violation at line 2. -/
def lines4w : List (List String) :=
  [["chr1", "5", "10", "0.5", "7"], ["chr1", "7", "12", "0.5", "7"]]

/-- Input that re-interleaves `chr1` after `chr2` has begun — a global
sort-order violation with no adjacent same-chromosome violation. -/
def lines5 : List (List String) :=
  [["chr1", "0", "10", "0.5", "7"], ["chr2", "0", "10", "0.5", "7"],
    ["chr1", "0", "5", "0.5", "7"]]

/-- Input with a same-chromosome sort violation at line 3. -/
def lines5w : List (List String) :=
  [["chr2", "100", "200", "0.5", "7"], ["chr2", "300", "400", "0.5", "7"],
    ["chr2", "350", "360", "0.5", "7"]]

/-- Sorted-per-the-check input whose second record has
`start = 10 ≥ end = 5`, so stored ends decrease. -/
def lines6 : List (List String) :=
  [["chr1", "0", "10", "0.5", "7"], ["chr1", "10", "5", "0.5", "7"]]

/-- Well-formed sorted input on one chromosome. -/
def lines6w : List (List String) :=
  [["chr1", "0", "10", "0.5", "7"], ["chr1", "10", "20", "0.5", "7"]]

/-- Configuration with all four columns set (methylated 2,
unmethylated 3, fraction 4, coverage 5). -/
def cfg7 : ColCfg := ⟨4, 5, 2, 3⟩

/-- Record with five fields, so that both the methylated/unmethylated
pair and the fraction/coverage pair of `cfg7` are in range. -/
def rec7 : List String := ["chr1", "3", "7", "0.9", "100"]

/-- First record of the C10 witness input, with start field `-1`. -/
def rec10a : List String := ["chrX", "-1", "50", "0.25", "8"]

/-- Second record of the C10 witness input, out of order after `rec10a`. -/
def rec10b : List String := ["chrX", "2", "40", "0.75", "4"]

section Theorems

attribute [local semireducible] Rat.mul Rat.add Rat.inv Rat.sub

theorem getD_eq_getElem_of_lt {α : Type} (l : List α) (d : α) (i : Nat)
    (h : i < l.length) : l.getD i d = l[i] := by
  rw [List.getD_eq_getElem?_getD, List.getElem?_eq_getElem h]
  rfl

theorem ends_mono_getD (l : List MethInterval)
    (he : l.Pairwise (fun a b => a.«end» ≤ b.«end»))
    (i j : Nat) (hij : i ≤ j) (hj : j < l.length) :
    (l.getD i dummyIv).«end» ≤ (l.getD j dummyIv).«end» := by
  have hi : i < l.length := lt_of_le_of_lt hij hj
  rw [getD_eq_getElem_of_lt l dummyIv i hi, getD_eq_getElem_of_lt l dummyIv j hj]
  rcases Nat.lt_or_ge i j with h | h
  · exact List.pairwise_iff_getElem.mp he i j hi hj h
  · have : i = j := le_antisymm hij h
    subst this
    exact le_refl _

theorem lbGo_spec (l : List MethInterval) (s : Int)
    (he : l.Pairwise (fun a b => a.«end» ≤ b.«end»)) :
    ∀ (fuel lo hi : Nat), hi - lo ≤ fuel → lo ≤ hi → hi ≤ l.length →
    (∀ i, i < lo → (l.getD i dummyIv).«end» ≤ s) →
    (∀ i, hi ≤ i → i < l.length → s < (l.getD i dummyIv).«end») →
    lo ≤ lbGo l s fuel lo hi ∧ lbGo l s fuel lo hi ≤ hi ∧
      (∀ i, i < lbGo l s fuel lo hi → (l.getD i dummyIv).«end» ≤ s) ∧
      (∀ i, lbGo l s fuel lo hi ≤ i → i < l.length →
        s < (l.getD i dummyIv).«end») := by
  intro fuel
  induction fuel with
  | zero =>
    intro lo hi hfuel hlh hhl hlow hhigh
    have : lo = hi := by omega
    subst this
    simp only [lbGo]
    exact ⟨le_refl _, le_refl _, hlow, fun i h1 h2 => hhigh i h1 h2⟩
  | succ fuel ih =>
    intro lo hi hfuel hlh hhl hlow hhigh
    simp only [lbGo]
    by_cases hlt : lo < hi
    · simp only [if_pos hlt]
      by_cases hcmp : (l.getD (lo + (hi - lo) / 2) dummyIv).«end» ≤ s
      · simp only [if_pos hcmp]
        have hres := ih (lo + (hi - lo) / 2 + 1) hi (by omega) (by omega) hhl
          (fun i hilt => le_trans
            (ends_mono_getD l he i (lo + (hi - lo) / 2) (by omega) (by omega))
            hcmp)
          hhigh
        exact ⟨le_trans (by omega) hres.1, hres.2.1, hres.2.2.1, hres.2.2.2⟩
      · simp only [if_neg hcmp]
        have hmids : s < (l.getD (lo + (hi - lo) / 2) dummyIv).«end» :=
          lt_of_not_le hcmp
        have hres := ih lo (lo + (hi - lo) / 2) (by omega) (by omega) (by omega)
          hlow
          (fun i hge hilen => lt_of_lt_of_le hmids
            (ends_mono_getD l he (lo + (hi - lo) / 2) i hge hilen))
        exact ⟨hres.1, le_trans hres.2.1 (by omega), hres.2.2.1, hres.2.2.2⟩
    · simp only [if_neg hlt]
      have : lo = hi := by omega
      subst this
      exact ⟨le_refl _, le_refl _, hlow, fun i h1 h2 => hhigh i h1 h2⟩

/-- Claim C2: for a sequence of intervals with non-decreasing `end`
values, `lower_bound_end` returns the least index whose interval's `end`
strictly exceeds the anchor `s` (so the length when no such interval
exists): the result is at most the length, and an index `i` satisfies
`s < intervals[i].end` exactly when it is at or past the result.  In
particular, on the ends `[2, 6, 11]` the anchors `0, 2, 6, 11` yield the
indices `0, 1, 2, 3`. -/
theorem lower_bound_end_correct (l : List MethInterval) (s : Int)
    (he : l.Pairwise (fun a b => a.«end» ≤ b.«end»)) :
    (lower_bound_end l s ≤ l.length ∧
      (∀ i, i < l.length →
        (s < (l.getD i dummyIv).«end» ↔ lower_bound_end l s ≤ i))) ∧
    lower_bound_end exIvs 0 = 0 ∧ lower_bound_end exIvs 2 = 1 ∧
      lower_bound_end exIvs 6 = 2 ∧ lower_bound_end exIvs 11 = 3 := by
  have hres := lbGo_spec l s he l.length 0 l.length (by omega) (Nat.zero_le _)
    (le_refl _) (fun i h => absurd h (Nat.not_lt_zero i))
    (fun i h1 h2 => absurd (lt_of_le_of_lt h1 h2) (lt_irrefl _))
  refine ⟨⟨hres.2.1, fun i hi => ⟨fun hs => ?_, fun hle => hres.2.2.2 i hle hi⟩⟩,
    by decide, by decide, by decide, by decide⟩
  by_contra hnot
  rw [lower_bound_end] at hnot
  exact absurd (hres.2.2.1 i (by omega)) (not_le.mpr hs)

/-- Witness for C2 at the example list with ends `[2, 6, 11]`. -/
theorem lower_bound_end_correct_witness : lower_bound_end exIvs 0 = 0 :=
  (lower_bound_end_correct exIvs 0 (by decide)).2.1

theorem overlap_scan_eq (t : TargetInterval) (l : List MethInterval) :
    ∀ a : Agg, l.Pairwise (fun x y => x.start ≤ y.start) →
    overlap_scan t a l =
      ⟨a.num_positions + overlapCount t l,
        a.sum_total_coverage + overlapCoverage t l,
        a.sum_meth_coverage + overlapWeighted t l⟩ := by
  induction l with
  | nil =>
    intro a _
    simp [overlap_scan, overlapCount, overlapCoverage, overlapWeighted]
  | cons iv rest ih =>
    intro a hp
    rw [List.pairwise_cons] at hp
    by_cases hbr : t.«end» ≤ iv.start
    · have hnil : (iv :: rest).filter (overlapb t) = [] := by
        rw [List.filter_eq_nil_iff]
        intro x hx
        have hxs : t.«end» ≤ x.start := by
          rcases List.mem_cons.mp hx with h | h
          · exact h ▸ hbr
          · exact le_trans hbr (hp.1 x h)
        simp [overlapb, not_lt.mpr hxs]
      simp only [overlap_scan, if_pos hbr, overlapCount, overlapCoverage,
        overlapWeighted, hnil]
      cases a
      simp
    · have hivlt : iv.start < t.«end» := not_le.mp hbr
      by_cases hin : t.start < iv.«end»
      · have hob : overlapb t iv = true := by simp [overlapb, hivlt, hin]
        simp only [overlap_scan, if_neg hbr, if_pos hin]
        rw [ih _ hp.2]
        simp only [overlapCount, overlapCoverage, overlapWeighted,
          List.filter_cons, hob, if_pos, List.length_cons, List.map_cons,
          List.sum_cons, Agg.mk.injEq]
        refine ⟨by omega, by ring, by ring⟩
      · have hob : overlapb t iv = false := by simp [overlapb, hin]
        simp only [overlap_scan, if_neg hbr, if_neg hin]
        rw [ih _ hp.2]
        simp only [overlapCount, overlapCoverage, overlapWeighted,
          List.filter_cons, hob]
        simp

/-- Claim C1: for a table whose chromosome sequence has non-decreasing
starts and non-decreasing ends, and a target whose chromosome is
present, the aggregation of `compute_target_line` (factored here as
`compute_target_agg`) counts exactly the intervals with
`iv.start < t.end` and `iv.end > t.start`, sums their coverages, and,
when the total coverage is positive, reports their
coverage-weighted fraction. -/
theorem compute_target_agg_correct (ranges : MethRanges) (t : TargetInterval)
    (l : List MethInterval)
    (hl : lookupChrom ranges.by_chrom t.chrom = some l)
    (hstart : l.Pairwise (fun a b => a.start ≤ b.start))
    (he : l.Pairwise (fun a b => a.«end» ≤ b.«end»)) :
    (compute_target_agg ranges t).num_positions = overlapCount t l ∧
    (compute_target_agg ranges t).sum_total_coverage = overlapCoverage t l ∧
    (0 < overlapCoverage t l →
      weighted_fraction (compute_target_agg ranges t) =
        overlapWeighted t l / (overlapCoverage t l : Rat)) := by
  have hspec := lbGo_spec l t.start he l.length 0 l.length (by omega)
    (Nat.zero_le _) (le_refl _) (fun i h => absurd h (Nat.not_lt_zero i))
    (fun i h1 h2 => absurd (lt_of_le_of_lt h1 h2) (lt_irrefl _))
  have hlen : lower_bound_end l t.start ≤ l.length := hspec.2.1
  have hbelow : ∀ i, i < lower_bound_end l t.start →
      (l.getD i dummyIv).«end» ≤ t.start := hspec.2.2.1
  have htake : (l.take (lower_bound_end l t.start)).filter (overlapb t) = [] := by
    rw [List.filter_eq_nil_iff]
    intro x hx
    rcases List.mem_iff_getElem.mp hx with ⟨i, hlt, hxe⟩
    have hmin : i < lower_bound_end l t.start := by
      have := hlt
      simp [List.length_take] at this
      omega
    have hil : i < l.length := by
      have := hlt
      simp [List.length_take] at this
      omega
    have hend : x.«end» ≤ t.start := by
      have h1 := hbelow i hmin
      rw [getD_eq_getElem_of_lt l dummyIv i hil] at h1
      rw [List.getElem_take] at hxe
      exact hxe ▸ h1
    simp [overlapb, not_lt.mpr hend]
  have hsplit : l.filter (overlapb t) =
      (l.drop (lower_bound_end l t.start)).filter (overlapb t) := by
    conv_lhs => rw [← List.take_append_drop (lower_bound_end l t.start) l]
    rw [List.filter_append, htake, List.nil_append]
  have hdp : (l.drop (lower_bound_end l t.start)).Pairwise
      (fun a b => a.start ≤ b.start) :=
    List.Pairwise.sublist (List.drop_sublist _ l) hstart
  have hagg : compute_target_agg ranges t =
      overlap_scan t ⟨0, 0, 0⟩ (l.drop (lower_bound_end l t.start)) := by
    simp [compute_target_agg, hl]
  have hc : overlapCount t (l.drop (lower_bound_end l t.start)) =
      overlapCount t l := by
    rw [overlapCount, overlapCount, hsplit]
  have hcov : overlapCoverage t (l.drop (lower_bound_end l t.start)) =
      overlapCoverage t l := by
    rw [overlapCoverage, overlapCoverage, hsplit]
  have hw : overlapWeighted t (l.drop (lower_bound_end l t.start)) =
      overlapWeighted t l := by
    rw [overlapWeighted, overlapWeighted, hsplit]
  rw [hagg, overlap_scan_eq t _ _ hdp]
  refine ⟨by simp [hc], by simp [hcov], fun hpos => ?_⟩
  simp only [weighted_fraction, hc, hcov, hw, Nat.zero_add, zero_add]
  rw [if_pos hpos]

/-- Witness for C1 at the table and target of the repository's own
weighted-fraction test. -/
theorem compute_target_agg_correct_witness :
    (compute_target_agg ranges8 target8).num_positions =
      overlapCount target8 [⟨10, 11, 1, 5⟩, ⟨12, 13, 1 / 2, 10⟩, ⟨20, 21, 0, 3⟩] :=
  (compute_target_agg_correct ranges8 target8 _ (by decide) (by decide)
    (by decide)).1

theorem overlap_scan_id (t : TargetInterval) (l : List MethInterval) :
    ∀ a : Agg, (∀ iv ∈ l, ¬(iv.start < t.«end» ∧ t.start < iv.«end»)) →
    overlap_scan t a l = a := by
  induction l with
  | nil =>
    intro a _
    rfl
  | cons iv rest ih =>
    intro a hno
    by_cases hbr : t.«end» ≤ iv.start
    · simp [overlap_scan, if_pos hbr]
    · have h1 : iv.start < t.«end» := not_le.mp hbr
      have h2 : ¬t.start < iv.«end» :=
        fun h => hno iv (List.mem_cons_self iv rest) ⟨h1, h⟩
      simp only [overlap_scan, if_neg hbr, if_neg h2]
      exact ih a fun x hx => hno x (List.mem_cons_of_mem iv hx)

/-- Claim C3: the per-target aggregation is total and never faults: an
absent chromosome yields the zero aggregate with weighted fraction 0, a
present chromosome with no overlapping interval yields the zero
aggregate with weighted fraction 0, and any aggregate whose accumulated
total coverage is 0 reports weighted fraction 0 rather than dividing. -/
theorem compute_target_agg_total :
    (∀ (ranges : MethRanges) (t : TargetInterval),
      lookupChrom ranges.by_chrom t.chrom = none →
      compute_target_agg ranges t = ⟨0, 0, 0⟩ ∧
        weighted_fraction (compute_target_agg ranges t) = 0) ∧
    (∀ (ranges : MethRanges) (t : TargetInterval) (l : List MethInterval),
      lookupChrom ranges.by_chrom t.chrom = some l →
      (∀ iv ∈ l, ¬(iv.start < t.«end» ∧ t.start < iv.«end»)) →
      compute_target_agg ranges t = ⟨0, 0, 0⟩ ∧
        weighted_fraction (compute_target_agg ranges t) = 0) ∧
    (∀ a : Agg, a.sum_total_coverage = 0 → weighted_fraction a = 0) := by
  refine ⟨fun ranges t h => ?_, fun ranges t l h hno => ?_, fun a h => ?_⟩
  · have hz : compute_target_agg ranges t = ⟨0, 0, 0⟩ := by
      simp [compute_target_agg, h]
    exact ⟨hz, by rw [hz]; simp [weighted_fraction]⟩
  · have hz : compute_target_agg ranges t = ⟨0, 0, 0⟩ := by
      simp only [compute_target_agg, h]
      exact overlap_scan_id t _ _ fun iv hiv => hno iv (List.mem_of_mem_drop hiv)
    exact ⟨hz, by rw [hz]; simp [weighted_fraction]⟩
  · simp [weighted_fraction, h]

/-- Witness for C3 at a target whose chromosome is absent from the
empty table. -/
theorem compute_target_agg_total_witness :
    compute_target_agg ⟨[]⟩ ⟨"chr1", 0, 1⟩ = ⟨0, 0, 0⟩ :=
  (compute_target_agg_total.1 ⟨[]⟩ ⟨"chr1", 0, 1⟩ rfl).1

/-- Claim C8: on the table `chr1 [10,11) f=1 c=5; [12,13) f=0.5 c=10;
[20,21) f=0 c=3` and the target `chr1:[9,14)`, `compute_target_line`
produces exactly the tab-delimited line `chr1\t9\t14\t2\t15\t0.6667`,
with the weighted fraction formatted to 4 decimal digits. -/
theorem compute_target_line_example :
    compute_target_line ranges8 target8 = "chr1\t9\t14\t2\t15\t0.6667" := by
  decide

theorem parse_meth_bed_error_iff (cfg : ColCfg) (lines : List (List String))
    (msg : String) :
    parse_meth_bed cfg lines = Except.error msg ↔
      parse_meth_bed_go cfg ⟨[], "", -1, -1, 0⟩ lines = Except.error msg := by
  cases hgo : parse_meth_bed_go cfg ⟨[], "", -1, -1, 0⟩ lines with
  | ok m => simp [parse_meth_bed, hgo]
  | error m => simp [parse_meth_bed, hgo]


theorem go_cons_skip (cfg : ColCfg) (bc : List (String × List MethInterval))
    (pc : String) (ps pe : Int) (ln : Nat) (fields : List String)
    (rest : List (List String)) (hlen : fields.length < 4) :
    parse_meth_bed_go cfg ⟨bc, pc, ps, pe, ln⟩ (fields :: rest) =
      parse_meth_bed_go cfg ⟨bc, pc, ps, pe, ln + 1⟩ rest := by
  simp only [parse_meth_bed_go]
  rw [if_pos hlen]

theorem go_cons_viol (cfg : ColCfg) (bc : List (String × List MethInterval))
    (pc : String) (ps pe : Int) (ln : Nat) (fields : List String)
    (rest : List (List String)) (hlen : ¬fields.length < 4)
    (hg : ps ≠ -1 ∧ (recTriple fields).1 = pc ∧ (recTriple fields).2.1 < pe) :
    parse_meth_bed_go cfg ⟨bc, pc, ps, pe, ln⟩ (fields :: rest) =
      Except.error (sortErrMsg (ln + 1) pc ps pe (fields.getD 0 "")
        (parse_i32_lossy (fields.getD 1 ""))
        (parse_i32_lossy (fields.getD 2 ""))) := by
  simp only [recTriple] at hg
  simp only [parse_meth_bed_go]
  rw [if_neg hlen, if_pos hg]

theorem go_cons_step (cfg : ColCfg) (bc : List (String × List MethInterval))
    (pc : String) (ps pe : Int) (ln : Nat) (fields : List String)
    (rest : List (List String)) (fc : Rat × Int) (hlen : ¬fields.length < 4)
    (hg : ¬(ps ≠ -1 ∧ (recTriple fields).1 = pc ∧ (recTriple fields).2.1 < pe))
    (hfc : deriveFracCov cfg fields = some fc) :
    parse_meth_bed_go cfg ⟨bc, pc, ps, pe, ln⟩ (fields :: rest) =
      parse_meth_bed_go cfg
        ⟨pushEntry bc (fields.getD 0 "")
            ⟨parse_i32_lossy (fields.getD 1 ""),
              parse_i32_lossy (fields.getD 2 ""), fc.1, fc.2⟩,
          fields.getD 0 "", parse_i32_lossy (fields.getD 1 ""),
          parse_i32_lossy (fields.getD 2 ""), ln + 1⟩ rest := by
  simp only [recTriple] at hg
  simp only [parse_meth_bed_go]
  rw [if_neg hlen, if_neg hg, hfc]

theorem violFrom_cons_skip (pc : String) (ps pe : Int) (fields : List String)
    (rest : List (List String)) (hlen : fields.length < 4) :
    violFrom pc ps pe (fields :: rest) = violFrom pc ps pe rest := by
  simp only [violFrom]
  rw [if_pos hlen]

theorem violFrom_cons_kept (pc : String) (ps pe : Int) (fields : List String)
    (rest : List (List String)) (hlen : ¬fields.length < 4) :
    violFrom pc ps pe (fields :: rest) =
      if ps ≠ -1 ∧ (recTriple fields).1 = pc ∧ (recTriple fields).2.1 < pe then
        true
      else violFrom (recTriple fields).1 (recTriple fields).2.1
        (recTriple fields).2.2 rest := by
  simp only [violFrom]
  rw [if_neg hlen]

theorem go_sort_iff (cfg : ColCfg) :
    ∀ (lines : List (List String)) (bc : List (String × List MethInterval))
      (pc : String) (ps pe : Int) (ln : Nat),
    (∀ f ∈ lines, 4 ≤ f.length → deriveFracCov cfg f ≠ none) →
    ((∃ n pc2 ps2 pe2 c s e2,
        parse_meth_bed_go cfg ⟨bc, pc, ps, pe, ln⟩ lines =
          Except.error (sortErrMsg n pc2 ps2 pe2 c s e2)) ↔
      violFrom pc ps pe lines = true) := by
  intro lines
  induction lines with
  | nil =>
    intro bc pc ps pe ln _
    simp [parse_meth_bed_go, violFrom]
  | cons fields rest ih =>
    intro bc pc ps pe ln hcols
    by_cases hlen : fields.length < 4
    · rw [go_cons_skip cfg bc pc ps pe ln fields rest hlen,
        violFrom_cons_skip pc ps pe fields rest hlen]
      exact ih bc pc ps pe (ln + 1) fun f hf h4 =>
        hcols f (List.mem_cons_of_mem _ hf) h4
    · rw [violFrom_cons_kept pc ps pe fields rest hlen]
      by_cases hg : ps ≠ -1 ∧ (recTriple fields).1 = pc ∧
          (recTriple fields).2.1 < pe
      · rw [if_pos hg]
        constructor
        · intro _
          rfl
        · intro _
          exact ⟨ln + 1, pc, ps, pe, fields.getD 0 "",
            parse_i32_lossy (fields.getD 1 ""),
            parse_i32_lossy (fields.getD 2 ""),
            go_cons_viol cfg bc pc ps pe ln fields rest hlen hg⟩
      · rw [if_neg hg]
        have hd : deriveFracCov cfg fields ≠ none :=
          hcols fields (List.mem_cons_self _ _) (by omega)
        obtain ⟨fc, hfc⟩ : ∃ fc, deriveFracCov cfg fields = some fc := by
          cases hdc : deriveFracCov cfg fields with
          | none => exact absurd hdc hd
          | some fc => exact ⟨fc, rfl⟩
        rw [go_cons_step cfg bc pc ps pe ln fields rest fc hlen hg hfc]
        exact ih _ _ _ _ _ fun f hf h4 => hcols f (List.mem_cons_of_mem _ hf) h4

/-- Counterexample to C4 as stated: in `lines4` the second kept record
has the same chromosome `chr1` as the immediately previous kept record
and start `0` strictly below that record's end `10`, yet the builder
accepts the input, because the previous record's parsed start is the
`-1` sentinel. -/
theorem sort_check_sentinel_cex :
    parse_meth_bed cfg0 lines4 =
      Except.ok ⟨[("chr1", [⟨-1, 10, 1 / 2, 7⟩, ⟨0, 5, 1 / 2, 7⟩])]⟩ ∧
    keptTriples lines4 = [("chr1", -1, 10), ("chr1", 0, 5)] ∧ (0 : Int) < 10 :=
  ⟨by decide, by decide, by decide⟩

/-- Claim C4 (amended): provided every kept record's column combination
is satisfiable, the builder fails with the fatal sort error — whose
message is built from the offending line number and both records —
exactly when some kept record has the same chromosome as the immediately
previous kept record, a start strictly below that record's end, and that
previous record's parsed start differs from the `-1` sentinel (the
condition the original claim omits); a record whose chromosome differs
from the previous kept record's never triggers the check, and on failure
the builder returns only the error message, never a table. -/
theorem parse_meth_bed_sort_error_iff (cfg : ColCfg) (lines : List (List String))
    (hcols : ∀ f ∈ lines, 4 ≤ f.length → deriveFracCov cfg f ≠ none) :
    (∃ n pc ps pe c s e2, parse_meth_bed cfg lines =
        Except.error (sortErrMsg n pc ps pe c s e2)) ↔
      violFrom "" (-1) (-1) lines = true := by
  have h := go_sort_iff cfg lines [] "" (-1) (-1) 0 hcols
  constructor
  · rintro ⟨n, pc, ps, pe, c, s, e2, he⟩
    exact h.mp ⟨n, pc, ps, pe, c, s, e2,
      (parse_meth_bed_error_iff cfg lines _).mp he⟩
  · intro hv
    obtain ⟨n, pc, ps, pe, c, s, e2, he⟩ := h.mpr hv
    exact ⟨n, pc, ps, pe, c, s, e2,
      (parse_meth_bed_error_iff cfg lines _).mpr he⟩

/-- Witness for amended C4 at an input with an ordinary adjacent
same-chromosome sort violation. -/
theorem parse_meth_bed_sort_error_iff_witness :
    ∃ n pc ps pe c s e2, parse_meth_bed cfg0 lines4w =
      Except.error (sortErrMsg n pc ps pe c s e2) :=
  (parse_meth_bed_sort_error_iff cfg0 lines4w (by decide)).mpr (by decide)

/-- Counterexample to C5 as stated: `lines5` re-interleaves `chr1` after
`chr2` has begun — a global `(chrom, start, end)` sort-order violation,
as the `contig` conjunct records — yet the builder accepts it and
produces a table instead of raising the fatal sort error. -/
theorem interleaving_accepted_cex :
    parse_meth_bed cfg0 lines5 =
      Except.ok ⟨[("chr1", [⟨0, 10, 1 / 2, 7⟩, ⟨0, 5, 1 / 2, 7⟩]),
        ("chr2", [⟨0, 10, 1 / 2, 7⟩])]⟩ ∧
    contig (keptTriples lines5) = false :=
  ⟨by decide, by decide⟩

/-- Claim C5 (amended): the builder raises the fatal sort error exactly
for violations between consecutive kept records of the same chromosome
(with previous parsed start ≠ -1, and all kept records' column
combinations satisfiable); a global-order violation consisting only of
re-interleaving a chromosome after another has begun is not detected.
This theorem proves the detected half: any input containing an adjacent
same-chromosome violation fails with the sort error. -/
theorem parse_meth_bed_sort_error_of_adjacent_violation (cfg : ColCfg)
    (lines : List (List String))
    (hcols : ∀ f ∈ lines, 4 ≤ f.length → deriveFracCov cfg f ≠ none)
    (hviol : violFrom "" (-1) (-1) lines = true) :
    ∃ n pc ps pe c s e2, parse_meth_bed cfg lines =
      Except.error (sortErrMsg n pc ps pe c s e2) := by
  obtain ⟨n, pc, ps, pe, c, s, e2, he⟩ :=
    (go_sort_iff cfg lines [] "" (-1) (-1) 0 hcols).mpr hviol
  exact ⟨n, pc, ps, pe, c, s, e2, (parse_meth_bed_error_iff cfg lines _).mpr he⟩

/-- Witness for amended C5 at an input whose third record starts before
the second one ends on the same chromosome. -/
theorem parse_meth_bed_sort_error_of_adjacent_violation_witness :
    ∃ n pc ps pe c s e2, parse_meth_bed cfg0 lines5w =
      Except.error (sortErrMsg n pc ps pe c s e2) :=
  parse_meth_bed_sort_error_of_adjacent_violation cfg0 lines5w (by decide)
    (by decide)

theorem entryD_pushEntry (m : List (String × List MethInterval)) (k c : String)
    (iv : MethInterval) :
    entryD (pushEntry m k iv) c =
      if c = k then entryD m c ++ [iv] else entryD m c := by
  induction m with
  | nil =>
    by_cases hck : c = k
    · subst hck
      simp [pushEntry, entryD, lookupChrom]
    · simp [pushEntry, entryD, lookupChrom, hck, Ne.symm hck]
  | cons hd rest ih =>
    obtain ⟨k', l⟩ := hd
    simp only [pushEntry]
    by_cases hk : k' = k
    · subst hk
      rw [if_pos rfl]
      by_cases hkc : c = k'
      · subst hkc
        simp [entryD, lookupChrom]
      · simp [entryD, lookupChrom, hkc, Ne.symm hkc]
    · rw [if_neg hk]
      by_cases hkc : k' = c
      · subst hkc
        simp [entryD, lookupChrom, hk]
      · simp only [entryD, lookupChrom, if_neg hkc]
        exact ih

theorem go_ok_content (cfg : ColCfg) :
    ∀ (lines : List (List String)) (bc : List (String × List MethInterval))
      (pc : String) (ps pe : Int) (ln : Nat)
      (tbl : List (String × List MethInterval)),
    parse_meth_bed_go cfg ⟨bc, pc, ps, pe, ln⟩ lines = Except.ok tbl →
    ∀ c, entryD tbl c = entryD bc c ++ (chromRecs c lines).map (mkIv cfg) := by
  intro lines
  induction lines with
  | nil =>
    intro bc pc ps pe ln tbl hok c
    simp only [parse_meth_bed_go, Except.ok.injEq] at hok
    subst hok
    simp [chromRecs, keptRecs]
  | cons fields rest ih =>
    intro bc pc ps pe ln tbl hok c
    by_cases hlen : fields.length < 4
    · rw [go_cons_skip cfg bc pc ps pe ln fields rest hlen] at hok
      have hcr : chromRecs c (fields :: rest) = chromRecs c rest := by
        simp [chromRecs, keptRecs, List.filter_cons, hlen]
      rw [hcr]
      exact ih bc pc ps pe (ln + 1) tbl hok c
    · by_cases hgv : ps ≠ -1 ∧ (recTriple fields).1 = pc ∧
          (recTriple fields).2.1 < pe
      · rw [go_cons_viol cfg bc pc ps pe ln fields rest hlen hgv] at hok
        exact absurd hok (by simp)
      · cases hdc : deriveFracCov cfg fields with
        | none =>
          have herr : parse_meth_bed_go cfg ⟨bc, pc, ps, pe, ln⟩
              (fields :: rest) = Except.error "Error: invalid column indices" := by
            simp only [recTriple] at hgv
            simp only [parse_meth_bed_go]
            rw [if_neg hlen, if_neg hgv, hdc]
          rw [herr] at hok
          exact absurd hok (by simp)
        | some fc =>
          rw [go_cons_step cfg bc pc ps pe ln fields rest fc hlen hgv hdc] at hok
          have hrec := ih _ _ _ _ _ tbl hok c
          rw [hrec, entryD_pushEntry]
          have h4 : 4 ≤ fields.length := by omega
          have hcr : chromRecs c (fields :: rest) =
              if (recTriple fields).1 = c then fields :: chromRecs c rest
              else chromRecs c rest := by
            simp [chromRecs, keptRecs, List.filter_cons, h4]
          have hmk : mkIv cfg fields =
              (⟨parse_i32_lossy (fields.getD 1 ""),
                parse_i32_lossy (fields.getD 2 ""), fc.1, fc.2⟩ : MethInterval) := by
            simp [mkIv, recTriple, hdc]
          by_cases hcc : (recTriple fields).1 = c
          · have hceq : c = fields.getD 0 "" := by
              simp only [recTriple] at hcc
              exact hcc.symm
            rw [if_pos hceq, hcr, if_pos hcc]
            simp [hmk, List.append_assoc]
          · have hcne : ¬c = fields.getD 0 "" := by
              simp only [recTriple] at hcc
              exact fun h => hcc h.symm
            rw [if_neg hcne, hcr, if_neg hcc]

theorem go_ok_chain (cfg : ColCfg) :
    ∀ (lines : List (List String)) (bc : List (String × List MethInterval))
      (pc : String) (ps pe : Int) (ln : Nat)
      (tbl : List (String × List MethInterval)),
    parse_meth_bed_go cfg ⟨bc, pc, ps, pe, ln⟩ lines = Except.ok tbl →
    List.Chain (fun p q => ¬(p.2.1 ≠ -1 ∧ q.1 = p.1 ∧ q.2.1 < p.2.2))
      (pc, ps, pe) (keptTriples lines) := by
  intro lines
  induction lines with
  | nil =>
    intro bc pc ps pe ln tbl _
    have : keptTriples ([] : List (List String)) = [] := by
      simp [keptTriples, keptRecs]
    rw [this]
    exact List.Chain.nil
  | cons fields rest ih =>
    intro bc pc ps pe ln tbl hok
    by_cases hlen : fields.length < 4
    · rw [go_cons_skip cfg bc pc ps pe ln fields rest hlen] at hok
      have hkt : keptTriples (fields :: rest) = keptTriples rest := by
        simp [keptTriples, keptRecs, List.filter_cons, hlen]
      rw [hkt]
      exact ih _ _ _ _ _ _ hok
    · by_cases hgv : ps ≠ -1 ∧ (recTriple fields).1 = pc ∧
          (recTriple fields).2.1 < pe
      · rw [go_cons_viol cfg bc pc ps pe ln fields rest hlen hgv] at hok
        exact absurd hok (by simp)
      · cases hdc : deriveFracCov cfg fields with
        | none =>
          have herr : parse_meth_bed_go cfg ⟨bc, pc, ps, pe, ln⟩
              (fields :: rest) = Except.error "Error: invalid column indices" := by
            simp only [recTriple] at hgv
            simp only [parse_meth_bed_go]
            rw [if_neg hlen, if_neg hgv, hdc]
          rw [herr] at hok
          exact absurd hok (by simp)
        | some fc =>
          rw [go_cons_step cfg bc pc ps pe ln fields rest fc hlen hgv hdc] at hok
          have h4 : 4 ≤ fields.length := by omega
          have hkt : keptTriples (fields :: rest) =
              recTriple fields :: keptTriples rest := by
            simp [keptTriples, keptRecs, List.filter_cons, h4]
          rw [hkt, List.chain_cons]
          exact ⟨hgv, ih _ _ _ _ _ _ hok⟩

theorem pairwise_of_chain {α : Type} {R : α → α → Prop}
    (ht : ∀ x y z, R x y → R y z → R x z) :
    ∀ (a : α) (l : List α), List.Chain R a l →
    (∀ b ∈ l, R a b) ∧ List.Pairwise R (a :: l) := by
  intro a l
  induction l generalizing a with
  | nil =>
    intro _
    exact ⟨by simp, List.pairwise_singleton R a⟩
  | cons b l2 ih =>
    intro hch
    rw [List.chain_cons] at hch
    obtain ⟨hab, hbl⟩ := hch
    obtain ⟨hall, hpw⟩ := ih b hbl
    have hfor : ∀ x ∈ b :: l2, R a x := by
      intro x hx
      rcases List.mem_cons.mp hx with h | h
      · exact h ▸ hab
      · exact ht a b x hab (hall x h)
    refine ⟨hfor, ?_⟩
    rw [List.pairwise_cons]
    exact ⟨hfor, hpw⟩

theorem contig_cons (x : String × Int × Int) (rest : List (String × Int × Int)) :
    contig (x :: rest) = true ↔
      (x.1 ∈ rest.map Prod.fst → (rest.headD x).1 = x.1) ∧ contig rest = true := by
  simp only [contig, Bool.and_eq_true, Bool.or_eq_true, Bool.not_eq_true',
    decide_eq_true_eq, decide_eq_false_iff_not]
  rw [imp_iff_not_or]

theorem chain_filter_ends (c : String) :
    ∀ L : List (String × Int × Int),
    List.Chain' (fun p q => ¬(p.2.1 ≠ -1 ∧ q.1 = p.1 ∧ q.2.1 < p.2.2)) L →
    contig L = true →
    (∀ t ∈ L, t.2.1 ≠ -1) → (∀ t ∈ L, t.2.1 < t.2.2) →
    List.Chain' (fun a b => a.2.2 ≤ b.2.2)
      (L.filter (fun t => decide (t.1 = c))) := by
  intro L
  induction L with
  | nil =>
    intro _ _ _ _
    simp
  | cons x rest ih =>
    intro hch hcont hne hlt
    have hch2 : List.Chain' (fun p q => ¬(p.2.1 ≠ -1 ∧ q.1 = p.1 ∧ q.2.1 < p.2.2))
        rest := hch.tail
    have hcont2 : contig rest = true := ((contig_cons x rest).mp hcont).2
    have hhead : x.1 ∈ rest.map Prod.fst → (rest.headD x).1 = x.1 :=
      ((contig_cons x rest).mp hcont).1
    have hne2 : ∀ t ∈ rest, t.2.1 ≠ -1 :=
      fun t ht => hne t (List.mem_cons_of_mem x ht)
    have hlt2 : ∀ t ∈ rest, t.2.1 < t.2.2 :=
      fun t ht => hlt t (List.mem_cons_of_mem x ht)
    rw [List.filter_cons]
    by_cases hxc : x.1 = c
    · rw [if_pos (by simp [hxc])]
      rw [List.chain'_cons']
      refine ⟨?_, ih hch2 hcont2 hne2 hlt2⟩
      intro y hy
      cases hfr : rest.filter (fun t => decide (t.1 = c)) with
      | nil =>
        rw [hfr] at hy
        simp at hy
      | cons z w =>
        rw [hfr] at hy
        simp at hy
        subst hy
        have hzin : z ∈ rest.filter (fun t => decide (t.1 = c)) := by
          rw [hfr]
          exact List.mem_cons_self z w
        have hzmem : z ∈ rest := (List.mem_filter.mp hzin).1
        have hz1 : z.1 = c := by
          have := (List.mem_filter.mp hzin).2
          simpa using this
        have hmem : x.1 ∈ rest.map Prod.fst := by
          rw [hxc, ← hz1]
          exact List.mem_map_of_mem Prod.fst hzmem
        have hhd := hhead hmem
        cases rest with
        | nil => exact absurd hzmem (List.not_mem_nil z)
        | cons r rs =>
          have hr1x : r.1 = x.1 := hhd
          have hr1 : r.1 = c := hr1x.trans hxc
          rw [List.filter_cons, if_pos (by simp [hr1])] at hfr
          have hrz : r = z := (List.cons.injEq r _ z w).mp hfr |>.1
          have hxr : ¬(x.2.1 ≠ -1 ∧ r.1 = x.1 ∧ r.2.1 < x.2.2) :=
            (List.chain'_cons.mp hch).1
          have hxs : x.2.1 ≠ -1 := hne x (List.mem_cons_self x _)
          have hge : ¬r.2.1 < x.2.2 := fun hlt' => hxr ⟨hxs, hr1x, hlt'⟩
          have hr2 : r.2.1 < r.2.2 := hlt2 r (List.mem_cons_self r rs)
          rw [← hrz]
          omega
    · rw [if_neg (by simp [hxc])]
      exact ih hch2 hcont2 hne2 hlt2

/-- Counterexample to C6 as stated: `lines6` passes the sort check (its
second record has `start = 10`, not below the previous end `10`) and the
builder succeeds, but that second record has parsed start `10` not below
its parsed end `5`, and the stored `chr1` sequence has the decreasing
end values `[10, 5]`. -/
theorem ends_not_sorted_cex :
    parse_meth_bed cfg0 lines6 =
      Except.ok ⟨[("chr1", [⟨0, 10, 1 / 2, 7⟩, ⟨10, 5, 1 / 2, 7⟩])]⟩ ∧
    ¬List.Pairwise (fun a b => a.«end» ≤ b.«end»)
      [(⟨0, 10, 1 / 2, 7⟩ : MethInterval), ⟨10, 5, 1 / 2, 7⟩] :=
  ⟨by decide, by decide⟩

/-- Claim C6 (amended): for every input on which the builder succeeds
in which additionally each chromosome's kept records are contiguous, no
kept record's parsed start is the `-1` sentinel, and every kept record
has parsed start strictly below its parsed end (the condition the
original claim explicitly waives), every chromosome's stored interval
sequence has non-decreasing end values. -/
theorem parse_meth_bed_ends_sorted (cfg : ColCfg) (lines : List (List String))
    (tbl : MethRanges) (hok : parse_meth_bed cfg lines = Except.ok tbl)
    (hcontig : contig (keptTriples lines) = true)
    (hne : ∀ t ∈ keptTriples lines, t.2.1 ≠ -1)
    (hlt : ∀ t ∈ keptTriples lines, t.2.1 < t.2.2)
    (c : String) (l : List MethInterval)
    (hc : lookupChrom tbl.by_chrom c = some l) :
    l.Pairwise (fun a b => a.«end» ≤ b.«end») := by
  obtain ⟨m, hgo, hm⟩ : ∃ m, parse_meth_bed_go cfg ⟨[], "", -1, -1, 0⟩ lines =
      Except.ok m ∧ tbl = MethRanges.mk m := by
    cases hgo : parse_meth_bed_go cfg ⟨[], "", -1, -1, 0⟩ lines with
    | ok m =>
      have : MethRanges.mk m = tbl := by
        have h2 : parse_meth_bed cfg lines = Except.ok (MethRanges.mk m) := by
          simp [parse_meth_bed, hgo]
        rw [h2] at hok
        exact (Except.ok.injEq _ _).mp hok
      exact ⟨m, rfl, this.symm⟩
    | error msg =>
      have h2 : parse_meth_bed cfg lines = Except.error msg := by
        simp [parse_meth_bed, hgo]
      rw [h2] at hok
      exact absurd hok (by simp)
  subst hm
  have hl : l = entryD m c := by
    simp only [entryD, hc]
    rfl
  have hcontent := go_ok_content cfg lines [] "" (-1) (-1) 0 m hgo c
  have hentry : entryD ([] : List (String × List MethInterval)) c = [] := rfl
  rw [hentry, List.nil_append] at hcontent
  have hchain := go_ok_chain cfg lines [] "" (-1) (-1) 0 m hgo
  have hchain' : List.Chain'
      (fun p q => ¬(p.2.1 ≠ -1 ∧ q.1 = p.1 ∧ q.2.1 < p.2.2))
      (keptTriples lines) :=
    List.Chain'.tail (l := ("", -1, -1) :: keptTriples lines) hchain
  have hfil := chain_filter_ends c (keptTriples lines) hchain' hcontig hne hlt
  have hpw : ((keptTriples lines).filter (fun t => decide (t.1 = c))).Pairwise
      (fun a b => a.2.2 ≤ b.2.2) := by
    cases hfl : (keptTriples lines).filter (fun t => decide (t.1 = c)) with
    | nil => simp
    | cons a as =>
      rw [hfl] at hfil
      exact (pairwise_of_chain
        (R := fun p q : String × Int × Int => p.2.2 ≤ q.2.2)
        (fun x y z h1 h2 => le_trans h1 h2) a as hfil).2
  have hft : (keptTriples lines).filter (fun t => decide (t.1 = c)) =
      (chromRecs c lines).map recTriple := by
    rw [keptTriples, List.filter_map]
    rfl
  rw [hft, List.pairwise_map] at hpw
  rw [hl, hcontent, List.pairwise_map]
  exact hpw

/-- Witness for amended C6 at a well-formed two-record input. -/
theorem parse_meth_bed_ends_sorted_witness :
    List.Pairwise (fun a b => a.«end» ≤ b.«end»)
      [(⟨0, 10, 1 / 2, 7⟩ : MethInterval), ⟨10, 20, 1 / 2, 7⟩] :=
  parse_meth_bed_ends_sorted cfg0 lines6w
    ⟨[("chr1", [⟨0, 10, 1 / 2, 7⟩, ⟨10, 20, 1 / 2, 7⟩])]⟩ (by decide) (by decide)
    (by decide) (by decide) "chr1" _ (by decide)

/-- Claim C7: (i) for a record for which both the methylated/unmethylated
column pair and the fraction/coverage column pair are valid (1-based,
nonzero, within the record's field count), the derivation uses the
methylated/unmethylated mode — coverage is methylated + unmethylated and
fraction is methylated / coverage, 0 when coverage is not positive;
(ii) whenever the loop reaches a kept record none of whose three column
combinations fits its field count, the run fails fatally with the
invalid-column-indices error. -/
theorem derive_mode_priority_and_invalid_columns :
    (∀ (cfg : ColCfg) (fields : List String),
      mode1Valid cfg fields.length → mode3Valid cfg fields.length →
      deriveFracCov cfg fields =
        some
          (if 0 < parse_i32_lossy (fields.getD (cfg.meth_col - 1) "") +
              parse_i32_lossy (fields.getD (cfg.unmeth_col - 1) "") then
            (parse_i32_lossy (fields.getD (cfg.meth_col - 1) "") : Rat) /
              ((parse_i32_lossy (fields.getD (cfg.meth_col - 1) "") +
                parse_i32_lossy (fields.getD (cfg.unmeth_col - 1) "") : Int) : Rat)
          else 0,
          parse_i32_lossy (fields.getD (cfg.meth_col - 1) "") +
            parse_i32_lossy (fields.getD (cfg.unmeth_col - 1) ""))) ∧
    (∀ (cfg : ColCfg) (st : BuildState) (fields : List String)
      (rest : List (List String)), ¬fields.length < 4 →
      ¬(st.prev_start ≠ -1 ∧ (recTriple fields).1 = st.prev_chrom ∧
        (recTriple fields).2.1 < st.prev_end) →
      ¬mode1Valid cfg fields.length → ¬mode2Valid cfg fields.length →
      ¬mode3Valid cfg fields.length →
      parse_meth_bed_go cfg st (fields :: rest) =
        Except.error "Error: invalid column indices") := by
  constructor
  · intro cfg fields h1 _
    simp [deriveFracCov, if_pos h1]
  · intro cfg st fields rest hlen hg h1 h2 h3
    have hdc : deriveFracCov cfg fields = none := by
      simp [deriveFracCov, h1, h2, h3]
    obtain ⟨bc, pc, ps, pe, ln⟩ := st
    simp only [recTriple] at hg
    simp only [parse_meth_bed_go]
    rw [if_neg hlen, if_neg hg, hdc]

/-- Witness for C7 at a five-field record under a configuration where
both the methylated/unmethylated pair and the fraction/coverage pair are
in range: the methylated/unmethylated mode wins with coverage
3 + 7 = 10. -/
theorem derive_mode_priority_and_invalid_columns_witness :
    deriveFracCov cfg7 rec7 =
      some
        (if 0 < parse_i32_lossy (rec7.getD (cfg7.meth_col - 1) "") +
            parse_i32_lossy (rec7.getD (cfg7.unmeth_col - 1) "") then
          (parse_i32_lossy (rec7.getD (cfg7.meth_col - 1) "") : Rat) /
            ((parse_i32_lossy (rec7.getD (cfg7.meth_col - 1) "") +
              parse_i32_lossy (rec7.getD (cfg7.unmeth_col - 1) "") : Int) : Rat)
        else 0,
        parse_i32_lossy (rec7.getD (cfg7.meth_col - 1) "") +
          parse_i32_lossy (rec7.getD (cfg7.unmeth_col - 1) "")) :=
  derive_mode_priority_and_invalid_columns.1 cfg7 rec7 (by decide) (by decide)

/-- Claim C10: sort-order validation is silently skipped for any record
that immediately follows a kept record whose parsed start is `-1`: the
builder uses `prev_start == -1` as the "no previous record" sentinel, so
after a record whose start field parses to `-1`, the next kept record is
accepted — the two-record run below succeeds regardless of chromosomes
and coordinates, even when it is out of order. -/
theorem sort_check_skipped_after_neg_one (cfg : ColCfg) (f1 f2 : List String)
    (h1 : ¬f1.length < 4) (h2 : ¬f2.length < 4)
    (hs1 : parse_i32_lossy (f1.getD 1 "") = -1)
    (hd1 : deriveFracCov cfg f1 ≠ none) (hd2 : deriveFracCov cfg f2 ≠ none) :
    ∃ tbl : MethRanges, parse_meth_bed cfg [f1, f2] = Except.ok tbl := by
  obtain ⟨fc1, hfc1⟩ : ∃ fc, deriveFracCov cfg f1 = some fc := by
    cases hdc : deriveFracCov cfg f1 with
    | none => exact absurd hdc hd1
    | some fc => exact ⟨fc, rfl⟩
  obtain ⟨fc2, hfc2⟩ : ∃ fc, deriveFracCov cfg f2 = some fc := by
    cases hdc : deriveFracCov cfg f2 with
    | none => exact absurd hdc hd2
    | some fc => exact ⟨fc, rfl⟩
  have hg1 : ¬((-1 : Int) ≠ -1 ∧ (recTriple f1).1 = "" ∧
      (recTriple f1).2.1 < -1) := fun h => h.1 rfl
  have hg2 : ¬(parse_i32_lossy (f1.getD 1 "") ≠ -1 ∧
      (recTriple f2).1 = f1.getD 0 "" ∧
      (recTriple f2).2.1 < parse_i32_lossy (f1.getD 2 "")) := fun h => h.1 hs1
  have e1 := go_cons_step cfg [] "" (-1) (-1) 0 f1 [f2] fc1 h1 hg1 hfc1
  have e2 := go_cons_step cfg
    (pushEntry [] (f1.getD 0 "")
      ⟨parse_i32_lossy (f1.getD 1 ""), parse_i32_lossy (f1.getD 2 ""),
        fc1.1, fc1.2⟩)
    (f1.getD 0 "") (parse_i32_lossy (f1.getD 1 ""))
    (parse_i32_lossy (f1.getD 2 "")) (0 + 1) f2 [] fc2 h2 hg2 hfc2
  have hgo : parse_meth_bed_go cfg ⟨[], "", -1, -1, 0⟩ [f1, f2] =
      Except.ok
        (pushEntry
          (pushEntry [] (f1.getD 0 "")
            ⟨parse_i32_lossy (f1.getD 1 ""), parse_i32_lossy (f1.getD 2 ""),
              fc1.1, fc1.2⟩)
          (f2.getD 0 "")
          ⟨parse_i32_lossy (f2.getD 1 ""), parse_i32_lossy (f2.getD 2 ""),
            fc2.1, fc2.2⟩) := by
    rw [e1, e2]
    rfl
  exact ⟨⟨pushEntry
      (pushEntry [] (f1.getD 0 "")
        ⟨parse_i32_lossy (f1.getD 1 ""), parse_i32_lossy (f1.getD 2 ""),
          fc1.1, fc1.2⟩)
      (f2.getD 0 "")
      ⟨parse_i32_lossy (f2.getD 1 ""), parse_i32_lossy (f2.getD 2 ""),
        fc2.1, fc2.2⟩⟩,
    by simp [parse_meth_bed, hgo]⟩

/-- Witness for C10: after the record with start field `-1`, the
out-of-order record `rec10b` (start 2 below the previous end 50 on the
same chromosome) is accepted. -/
theorem sort_check_skipped_after_neg_one_witness :
    ∃ tbl : MethRanges, parse_meth_bed cfg0 [rec10a, rec10b] = Except.ok tbl :=
  sort_check_skipped_after_neg_one cfg0 rec10a rec10b (by decide) (by decide)
    (by decide) (by decide) (by decide)

theorem foldl_set_getElem (ranges : MethRanges) (targets : List TargetInterval) :
    ∀ (order : List Nat) (slots : List (Option String)) (j : Nat),
    (order.foldl
      (fun s i =>
        s.set i (some (compute_target_line ranges (targets.getD i dummyTarget))))
      slots)[j]? =
      if j ∈ order ∧ j < slots.length then
        some (some (compute_target_line ranges (targets.getD j dummyTarget)))
      else slots[j]? := by
  intro order
  induction order with
  | nil =>
    intro slots j
    simp
  | cons i rest ih =>
    intro slots j
    rw [List.foldl_cons, ih, List.length_set, List.getElem?_set]
    by_cases hij : i = j
    · subst hij
      by_cases hlen : i < slots.length
      · by_cases hir : i ∈ rest
        · simp [hir, hlen]
        · simp [hir, hlen]
      · have hnone : slots[i]? = none := List.getElem?_eq_none (le_of_not_lt hlen)
        simp [hlen, hnone]
    · by_cases hjr : j ∈ rest
      · by_cases hlen : j < slots.length
        · simp [hjr, hlen, hij]
        · simp [hjr, hlen, hij]
      · have hnotc : ¬j ∈ i :: rest := by
          rw [List.mem_cons]
          push_neg
          exact ⟨fun h => hij h.symm, hjr⟩
        simp [hjr, hij, hnotc]

/-- Claim C9: the batch driver's parallel map is an order-preserving
map: for every completion order of the workers (any permutation of the
target indices), the filled output slots are exactly one line per
target, in target input order — byte-for-byte the sequential
`compute_lines` result — so the emitted output never depends on which
worker finishes first. -/
theorem run_parallel_order_independent (ranges : MethRanges)
    (targets : List TargetInterval) (order : List Nat)
    (hperm : order.Perm (List.range targets.length)) :
    par_collect_slots ranges targets order =
      (compute_lines ranges targets).map some := by
  apply List.ext_getElem?
  intro j
  unfold par_collect_slots
  rw [foldl_set_getElem ranges targets order (List.replicate targets.length none)
    j, List.length_replicate]
  have hmem : j ∈ order ↔ j < targets.length := by
    rw [hperm.mem_iff, List.mem_range]
  by_cases hj : j < targets.length
  · rw [if_pos ⟨hmem.mpr hj, hj⟩]
    have hmm : (compute_lines ranges targets).map some =
        targets.map (fun t => some (compute_target_line ranges t)) := by
      simp [compute_lines]
    rw [hmm, List.getElem?_map, List.getElem?_eq_getElem hj]
    simp [List.getElem?_eq_getElem hj]
  · rw [if_neg fun h => hj h.2]
    have h1 : (List.replicate targets.length (none : Option String))[j]? = none :=
      List.getElem?_eq_none (by simpa using le_of_not_lt hj)
    have h2 : ((compute_lines ranges targets).map some)[j]? = none := by
      apply List.getElem?_eq_none
      simp only [List.length_map, compute_lines]
      simpa using le_of_not_lt hj
    rw [h1, h2]

/-- Witness for C9: a two-target batch whose workers finish in reverse
order still produces the sequential output. -/
theorem run_parallel_order_independent_witness :
    par_collect_slots ⟨[]⟩ [⟨"chr1", 0, 1⟩, ⟨"chr2", 2, 3⟩] [1, 0] =
      (compute_lines ⟨[]⟩ [⟨"chr1", 0, 1⟩, ⟨"chr2", 2, 3⟩]).map some :=
  run_parallel_order_independent ⟨[]⟩ [⟨"chr1", 0, 1⟩, ⟨"chr2", 2, 3⟩] [1, 0]
    (by decide)

end Theorems
